import Mathlib

/-!
Verification of the call-queueing and execution engine of the
pycoingecko-extra repository: the retrying dispatcher, the pagination
aggregator, the queue / batch executor, and the URL materialization and
endpoint-classification helpers of `scripts/swagger.py`.

The runtime layer (the `py_coingecko` package: retrying dispatcher,
pagination aggregator, queue and batch executor) is not present in the
sources; its behavior is modelled from the specification and exercised
against the observable behavior pinned down by `tests/test_api_client.py`.
The URL machinery of `scripts/swagger.py` is embedded directly from the
source.
-/

set_option maxHeartbeats 1000000

/-! ## Runtime data model (modelled from the spec) -/

/-- Modelled from the spec: a decoded response body.  The runtime treats
bodies as opaque decoded JSON values; we model them as strings. -/
abbrev Body := String

/-- Modelled from the spec: the pagination response metadata the server may
report in headers (total item count and page size), consumed by the
unbounded mode of the pagination aggregator of the missing `py_coingecko`
runtime module. -/
structure PageMeta where
  total : Option Nat
  perPage : Option Nat
deriving DecidableEq, Repr

/-- Modelled from the spec: the outcome of one transport-level GET —
either a response with a status code, headers and body, or a
network/connection failure with no response. -/
inductive TransportResult where
  | response (status : Nat) (hdr : PageMeta) (body : Body)
  | failure
deriving DecidableEq, Repr

/-- Modelled from the spec: one concrete HTTP request issued by the missing
`py_coingecko` runtime: the materialized endpoint URL, plus the `page` and
`per_page` query parameters when the request is page-scoped. -/
structure Request where
  url : String
  page : Option Nat
  perPage : Option Nat
deriving DecidableEq, Repr

/-- A request for a plain (non-paginated) call. -/
def plainReq (url : String) : Request := ⟨url, none, none⟩

/-- Modelled from the spec: the externally supplied transport capability.
The first argument is the index of the request in the global sequence of
requests actually issued (the tests observe this sequence as
`responses.calls`), so a server can answer differently across attempts. -/
abbrev Server := Nat → Request → TransportResult

/-- Modelled from the spec: the error taxonomy of the missing
`py_coingecko` runtime layer. -/
inductive ApiError where
  | transportError
  | httpStatusError (status : Nat)
  | rateLimitExhausted (msg : String)
  | paginationMetadataError
  | duplicateIdentifier
  | malformedCall
deriving DecidableEq, Repr

/-- The terminal rate-limit message of the runtime (`error_msgs` entry
`exp_limit_reached`). -/
def exp_limit_reached_msg : String := "exp limit reached"

/-- Modelled from the spec: one pass of the retrying dispatcher of the
missing `py_coingecko` runtime with `fuel` extra attempts still allowed,
where `i` is the index of the next request in the global request sequence.
Returns the classified outcome, the next global request index, and the list
of requests issued (in order).  A network failure raises `transportError`
with no retry; a 200 returns headers and body; a 429 retries after a
backoff sleep (the sleep does not affect counting and is not modelled)
while fuel remains and otherwise raises `rateLimitExhausted`; any other
status raises `httpStatusError` with no retry. -/
def dispatchGo (server : Server) (req : Request) :
    Nat → Nat → Except ApiError (PageMeta × Body) × Nat × List Request
  | 0, i =>
    match server i req with
    | .failure => (.error .transportError, i + 1, [req])
    | .response s hdr body =>
      if s = 200 then (.ok (hdr, body), i + 1, [req])
      else if s = 429 then
        (.error (.rateLimitExhausted exp_limit_reached_msg), i + 1, [req])
      else (.error (.httpStatusError s), i + 1, [req])
  | f + 1, i =>
    match server i req with
    | .failure => (.error .transportError, i + 1, [req])
    | .response s hdr body =>
      if s = 200 then (.ok (hdr, body), i + 1, [req])
      else if s = 429 then
        match dispatchGo server req f (i + 1) with
        | (r, i2, t) => (r, i2, req :: t)
      else (.error (.httpStatusError s), i + 1, [req])

/-- Modelled from the spec: the retrying dispatcher of the missing
`py_coingecko` runtime.  `limit` is the shared `exp_limit` retry budget:
the number of extra attempts allowed after the first. -/
def dispatch (server : Server) (limit : Nat) (req : Request) (i : Nat) :
    Except ApiError (PageMeta × Body) × Nat × List Request :=
  dispatchGo server req limit i

/-- The status code of a transport result, when a response was received. -/
def respStatus : TransportResult → Option Nat
  | .response s _ _ => some s
  | .failure => none

lemma dispatchGo_200 (server : Server) (req : Request) (fuel i : Nat)
    (hdr : PageMeta) (b : Body) (h : server i req = .response 200 hdr b) :
    dispatchGo server req fuel i = (.ok (hdr, b), i + 1, [req]) := by
  cases fuel <;> simp [dispatchGo, h]

lemma dispatchGo_429_step (server : Server) (req : Request) (f i : Nat)
    (hdr : PageMeta) (b : Body) (h : server i req = .response 429 hdr b) :
    dispatchGo server req (f + 1) i =
      match dispatchGo server req f (i + 1) with
      | (r, i2, t) => (r, i2, req :: t) := by
  simp [dispatchGo, h]

lemma dispatchGo_429_exhaust (server : Server) (req : Request) (i : Nat)
    (hdr : PageMeta) (b : Body) (h : server i req = .response 429 hdr b) :
    dispatchGo server req 0 i =
      (.error (.rateLimitExhausted exp_limit_reached_msg), i + 1, [req]) := by
  simp [dispatchGo, h]

lemma dispatchGo_429s_then_200 (server : Server) (req : Request) :
    ∀ (k fuel i : Nat) (hdr : PageMeta) (b : Body), k ≤ fuel →
      (∀ j, j < k → respStatus (server (i + j) req) = some 429) →
      server (i + k) req = .response 200 hdr b →
      dispatchGo server req fuel i =
        (.ok (hdr, b), i + (k + 1), List.replicate (k + 1) req) := by
  intro k
  induction k with
  | zero =>
    intro fuel i hdr b _ _ h200
    simp only [Nat.add_zero] at h200
    simpa using dispatchGo_200 server req fuel i hdr b h200
  | succ k ih =>
    intro fuel i hdr b hk h429 h200
    have h0 : respStatus (server (i + 0) req) = some 429 := h429 0 (Nat.succ_pos k)
    simp only [Nat.add_zero] at h0
    cases hsv : server i req with
    | failure => rw [hsv] at h0; simp [respStatus] at h0
    | response s h1 b1 =>
      rw [hsv] at h0
      simp only [respStatus, Option.some.injEq] at h0
      subst h0
      cases fuel with
      | zero => omega
      | succ f =>
        have hrec := ih f (i + 1) hdr b (by omega)
          (fun j hj => by
            have := h429 (j + 1) (by omega)
            simpa [Nat.add_assoc, Nat.add_comm 1 j] using this)
          (by
            have : i + 1 + k = i + (k + 1) := by omega
            rw [this]; exact h200)
        rw [dispatchGo_429_step server req f i h1 b1 hsv, hrec]
        have hi : i + 1 + (k + 1) = i + (k + 1 + 1) := by omega
        simp [hi, List.replicate_succ]

lemma dispatchGo_all_429 (server : Server) (req : Request) :
    ∀ (fuel i : Nat),
      (∀ j, j ≤ fuel → respStatus (server (i + j) req) = some 429) →
      dispatchGo server req fuel i =
        (.error (.rateLimitExhausted exp_limit_reached_msg), i + (fuel + 1),
          List.replicate (fuel + 1) req) := by
  intro fuel
  induction fuel with
  | zero =>
    intro i h429
    have h0 : respStatus (server (i + 0) req) = some 429 := h429 0 (Nat.le_refl 0)
    simp only [Nat.add_zero] at h0
    cases hsv : server i req with
    | failure => rw [hsv] at h0; simp [respStatus] at h0
    | response s h1 b1 =>
      rw [hsv] at h0
      simp only [respStatus, Option.some.injEq] at h0
      subst h0
      simpa using dispatchGo_429_exhaust server req i h1 b1 hsv
  | succ f ih =>
    intro i h429
    have h0 : respStatus (server (i + 0) req) = some 429 := h429 0 (Nat.zero_le _)
    simp only [Nat.add_zero] at h0
    cases hsv : server i req with
    | failure => rw [hsv] at h0; simp [respStatus] at h0
    | response s h1 b1 =>
      rw [hsv] at h0
      simp only [respStatus, Option.some.injEq] at h0
      subst h0
      have hrec := ih (i + 1)
        (fun j hj => by
          have := h429 (j + 1) (by omega)
          simpa [Nat.add_assoc, Nat.add_comm 1 j] using this)
      rw [dispatchGo_429_step server req f i h1 b1 hsv, hrec]
      have hi : i + 1 + (f + 1) = i + (f + 1 + 1) := by omega
      simp [hi, List.replicate_succ]

/-- Claim C1: the retrying dispatcher issues at most `exp_limit + 1`
attempts per request.  For `k ≤ exp_limit` consecutive 429 responses
followed by a 200, exactly `k + 1` requests are issued and the 200 body is
returned; when the first `exp_limit + 1` responses are all 429, exactly
`exp_limit + 1` requests are issued and a terminal `RateLimitExhausted`
error with message "exp limit reached" is signaled. -/
theorem dispatch_retry_budget (server : Server) (req : Request) (limit i0 : Nat) :
    (∀ (k : Nat) (hdr : PageMeta) (b : Body), k ≤ limit →
      (∀ j, j < k → respStatus (server (i0 + j) req) = some 429) →
      server (i0 + k) req = .response 200 hdr b →
      dispatch server limit req i0 =
        (.ok (hdr, b), i0 + (k + 1), List.replicate (k + 1) req))
    ∧ ((∀ j, j ≤ limit → respStatus (server (i0 + j) req) = some 429) →
      dispatch server limit req i0 =
        (.error (.rateLimitExhausted exp_limit_reached_msg), i0 + (limit + 1),
          List.replicate (limit + 1) req)) := by
  constructor
  · intro k hdr b hk h429 h200
    exact dispatchGo_429s_then_200 server req k limit i0 hdr b hk h429 h200
  · intro h429
    exact dispatchGo_all_429 server req limit i0 h429

/-- A server that answers 429 for the first two requests and 200 after. -/
def srvTwo429 : Server := fun i _ =>
  if i < 2 then .response 429 ⟨none, none⟩ "" else .response 200 ⟨none, none⟩ "ok"

/-- A server that always answers 429. -/
def srvAll429 : Server := fun _ _ => .response 429 ⟨none, none⟩ ""

/-- A sample request. -/
def req0 : Request := ⟨"https://api.coingecko.com/api/v3/ping", none, none⟩

theorem dispatch_retry_budget_witness :
    (2 ≤ 3 ∧
      dispatch srvTwo429 3 req0 0 =
        (.ok (⟨none, none⟩, "ok"), 3, List.replicate 3 req0))
    ∧ dispatch srvAll429 1 req0 0 =
        (.error (.rateLimitExhausted "exp limit reached"), 2,
          List.replicate 2 req0) :=
  ⟨⟨by decide,
    (dispatch_retry_budget srvTwo429 req0 3 0).1 2 ⟨none, none⟩ "ok"
      (by decide) (by decide) (by decide)⟩,
   (dispatch_retry_budget srvAll429 req0 1 0).2 (by decide)⟩

/-! ## Pagination aggregator (modelled from the spec) -/

/-- Modelled from the spec: the pagination parameters of a paginated call
of the missing `py_coingecko` runtime: `page_end` absent means "continue
until the server reports no further pages". -/
structure PaginationSpec where
  page_start : Nat
  page_end : Option Nat
  per_page : Option Nat
deriving DecidableEq, Repr

/-- The page-scoped request for page `p` of a paginated call. -/
def pageReq (url : String) (ps : PaginationSpec) (p : Nat) : Request :=
  ⟨url, some p, ps.per_page⟩

/-- Modelled from the spec: the effective page size used by unbounded
pagination — the server-reported value if present, else the
caller-supplied `per_page`. -/
def effPageSize (hdr : PageMeta) (ps : PaginationSpec) : Option Nat :=
  match hdr.perPage with
  | some s => some s
  | none => ps.per_page

/-- Modelled from the spec: the total page count computed by unbounded
pagination from the first response's metadata, `ceil(total / page_size)`;
`none` when the metadata is absent or malformed. -/
def pageCount (hdr : PageMeta) (ps : PaginationSpec) : Option Nat :=
  match hdr.total, effPageSize hdr ps with
  | some t, some sz => if sz = 0 then none else some ((t + sz - 1) / sz)
  | _, _ => none

/-- Modelled from the spec: dispatch the given pages in order through the
retrying dispatcher, pairing each page number with its decoded body; the
first failure aborts and propagates. -/
def fetchPages (server : Server) (limit : Nat) (url : String) (ps : PaginationSpec) :
    List Nat → Nat → Except ApiError (List (Nat × Body)) × Nat × List Request
  | [], i => (.ok [], i, [])
  | p :: rest, i =>
    match dispatch server limit (pageReq url ps p) i with
    | (.error e, i2, t) => (.error e, i2, t)
    | (.ok (_, b), i2, t) =>
      match fetchPages server limit url ps rest i2 with
      | (.error e, i3, t2) => (.error e, i3, t ++ t2)
      | (.ok tl, i3, t2) => (.ok ((p, b) :: tl), i3, t ++ t2)

/-- Modelled from the spec: the pagination aggregator of the missing
`py_coingecko` runtime.  Bounded mode dispatches pages `page_start` to
`page_end` inclusive; unbounded mode dispatches `page_start` first,
computes the page count from its response metadata, then dispatches pages
`page_start + 1 .. page_start + num_pages - 1`, signaling
`paginationMetadataError` when the metadata is absent or malformed. -/
def paginate (server : Server) (limit : Nat) (url : String) (ps : PaginationSpec)
    (i : Nat) : Except ApiError (List (Nat × Body)) × Nat × List Request :=
  match ps.page_end with
  | some pe => fetchPages server limit url ps (List.range' ps.page_start (pe + 1 - ps.page_start)) i
  | none =>
    match dispatch server limit (pageReq url ps ps.page_start) i with
    | (.error e, i2, t) => (.error e, i2, t)
    | (.ok (hdr, b), i2, t) =>
      match pageCount hdr ps with
      | none => (.error .paginationMetadataError, i2, t)
      | some n =>
        match fetchPages server limit url ps (List.range' (ps.page_start + 1) (n - 1)) i2 with
        | (.error e, i3, t2) => (.error e, i3, t ++ t2)
        | (.ok tl, i3, t2) => (.ok ((ps.page_start, b) :: tl), i3, t ++ t2)

lemma fetchPages_all_ok (server : Server) (limit : Nat) (url : String)
    (ps : PaginationSpec) (hs : Nat → PageMeta) (f : Nat → Body)
    (hall : ∀ i p, server i (pageReq url ps p) = .response 200 (hs p) (f p)) :
    ∀ (pages : List Nat) (i : Nat),
      fetchPages server limit url ps pages i =
        (.ok (pages.map fun p => (p, f p)), i + pages.length,
          pages.map (pageReq url ps)) := by
  intro pages
  induction pages with
  | nil => intro i; simp [fetchPages]
  | cons p rest ih =>
    intro i
    have hd : dispatch server limit (pageReq url ps p) i =
        (.ok (hs p, f p), i + 1, [pageReq url ps p]) :=
      dispatchGo_200 server (pageReq url ps p) limit i (hs p) (f p) (hall i p)
    have hi : i + 1 + rest.length = i + (rest.length + 1) := by omega
    simp [fetchPages, hd, ih, hi]

lemma fetchPages_split_err (server : Server) (limit : Nat) (url : String)
    (ps : PaginationSpec) :
    ∀ (l1 : List Nat) (p : Nat) (l2 : List Nat) (i : Nat)
      (rs : List (Nat × Body)) (i2 : Nat) (t1 : List Request)
      (e : ApiError) (i3 : Nat) (t2 : List Request),
      fetchPages server limit url ps l1 i = (.ok rs, i2, t1) →
      dispatch server limit (pageReq url ps p) i2 = (.error e, i3, t2) →
      fetchPages server limit url ps (l1 ++ p :: l2) i = (.error e, i3, t1 ++ t2) := by
  intro l1
  induction l1 with
  | nil =>
    intro p l2 i rs i2 t1 e i3 t2 h1 h2
    simp only [fetchPages, Prod.mk.injEq] at h1
    obtain ⟨-, hi, ht⟩ := h1
    subst hi; subst ht
    simp only [List.nil_append, fetchPages, h2]
  | cons q l1' ih =>
    intro p l2 i rs i2 t1 e i3 t2 h1 h2
    rw [fetchPages] at h1
    rcases hd : dispatch server limit (pageReq url ps q) i with ⟨r1, ia, ta⟩
    rw [hd] at h1
    cases r1 with
    | error e1 => simp at h1
    | ok v1 =>
      obtain ⟨h1v, b1v⟩ := v1
      rcases hf : fetchPages server limit url ps l1' ia with ⟨r2, ib, tb⟩
      simp only [hf] at h1
      cases r2 with
      | error e2 => simp at h1
      | ok tl =>
        simp only [Prod.mk.injEq, Except.ok.injEq] at h1
        obtain ⟨-, hi, ht⟩ := h1
        have hrest := ih p l2 ia tl ib tb e i3 t2 hf (by rw [hi]; exact h2)
        rw [List.cons_append, fetchPages, hd]
        simp [hrest, ← ht, List.append_assoc]

/-- Claim C4: bounded pagination with `page_start ≤ page_end`: when every
page responds 200, exactly `page_end - page_start + 1` requests are
issued, one per page in ascending order with the `page` query parameter
set to that page, and the result is the ordered list of
`(page, body)` pairs; and any per-page dispatch failure aborts the whole
paginated call, propagating the error with no request past the failing
page. -/
theorem paginate_bounded_spec (server : Server) (limit : Nat) (url : String)
    (ps : PaginationSpec) (pe i0 : Nat)
    (hpe : ps.page_end = some pe) (hle : ps.page_start ≤ pe) :
    (∀ (hs : Nat → PageMeta) (f : Nat → Body),
      (∀ i p, server i (pageReq url ps p) = .response 200 (hs p) (f p)) →
      paginate server limit url ps i0 =
        (.ok ((List.range' ps.page_start (pe - ps.page_start + 1)).map fun p => (p, f p)),
          i0 + (pe - ps.page_start + 1),
          (List.range' ps.page_start (pe - ps.page_start + 1)).map (pageReq url ps)))
    ∧ (∀ (l1 : List Nat) (p : Nat) (l2 : List Nat) (rs : List (Nat × Body))
        (i2 : Nat) (t1 : List Request) (e : ApiError) (i3 : Nat) (t2 : List Request),
        List.range' ps.page_start (pe - ps.page_start + 1) = l1 ++ p :: l2 →
        fetchPages server limit url ps l1 i0 = (.ok rs, i2, t1) →
        dispatch server limit (pageReq url ps p) i2 = (.error e, i3, t2) →
        paginate server limit url ps i0 = (.error e, i3, t1 ++ t2)) := by
  have hn : pe + 1 - ps.page_start = pe - ps.page_start + 1 := by omega
  constructor
  · intro hs f hall
    have hfp := fetchPages_all_ok server limit url ps hs f hall
      (List.range' ps.page_start (pe - ps.page_start + 1)) i0
    simp only [paginate, hpe, hn, hfp, List.length_range']
  · intro l1 p l2 rs i2 t1 e i3 t2 hsplit h1 h2
    have hfp := fetchPages_split_err server limit url ps l1 p l2 i0 rs i2 t1 e i3 t2 h1 h2
    rw [← hsplit] at hfp
    simp only [paginate, hpe, hn, hfp]

/-- A pagination spec for pages 1 to 3. -/
def ps13 : PaginationSpec := ⟨1, some 3, none⟩

/-- A server answering 200 with body "R" to every request. -/
def srvConst : Server := fun _ _ => .response 200 ⟨none, none⟩ "R"

/-- A server that fails at page 2 and answers 200 otherwise. -/
def srvFailPage2 : Server := fun _ r =>
  if r.page = some 2 then .failure else .response 200 ⟨none, none⟩ "R"

theorem paginate_bounded_spec_witness :
    paginate srvConst 0 "u" ps13 0 =
      (.ok [(1, "R"), (2, "R"), (3, "R")], 3,
        [pageReq "u" ps13 1, pageReq "u" ps13 2, pageReq "u" ps13 3])
    ∧ paginate srvFailPage2 0 "u" ps13 0 =
      (.error .transportError, 2, [pageReq "u" ps13 1, pageReq "u" ps13 2]) :=
  ⟨(paginate_bounded_spec srvConst 0 "u" ps13 3 0 rfl (by decide)).1
      (fun _ => ⟨none, none⟩) (fun _ => "R") (fun _ _ => rfl),
   (paginate_bounded_spec srvFailPage2 0 "u" ps13 3 0 rfl (by decide)).2
      [1] 2 [3] [(1, "R")] 1 [pageReq "u" ps13 1] .transportError 2
      [pageReq "u" ps13 2] (by decide) rfl rfl⟩

/-- Claim C5: unbounded pagination dispatches page `page_start` first,
computes the page count `n = ceil(total / size)` from the first response's
metadata — the page size being the server-reported value if present, else
the caller-supplied `per_page` — then dispatches exactly pages
`page_start + 1 .. page_start + n - 1` in ascending order and nothing
beyond; when the metadata is absent or malformed it signals
`PaginationMetadataError`. -/
theorem paginate_unbounded_spec (server : Server) (limit : Nat) (url : String)
    (ps : PaginationSpec) (i0 : Nat) (hpe : ps.page_end = none) :
    (∀ (hs : Nat → PageMeta) (f : Nat → Body) (total sz : Nat),
      (∀ i p, server i (pageReq url ps p) = .response 200 (hs p) (f p)) →
      (hs ps.page_start).total = some total →
      effPageSize (hs ps.page_start) ps = some sz →
      sz ≠ 0 →
      paginate server limit url ps i0 =
        (.ok ((ps.page_start, f ps.page_start) ::
            (List.range' (ps.page_start + 1) ((total + sz - 1) / sz - 1)).map
              (fun p => (p, f p))),
          i0 + 1 + ((total + sz - 1) / sz - 1),
          pageReq url ps ps.page_start ::
            (List.range' (ps.page_start + 1) ((total + sz - 1) / sz - 1)).map
              (pageReq url ps)))
    ∧ (∀ (hdr : PageMeta) (b : Body),
        server i0 (pageReq url ps ps.page_start) = .response 200 hdr b →
        pageCount hdr ps = none →
        paginate server limit url ps i0 =
          (.error .paginationMetadataError, i0 + 1,
            [pageReq url ps ps.page_start])) := by
  constructor
  · intro hs f total sz hall htot hsz hnz
    have hd : dispatch server limit (pageReq url ps ps.page_start) i0 =
        (.ok (hs ps.page_start, f ps.page_start), i0 + 1,
          [pageReq url ps ps.page_start]) :=
      dispatchGo_200 server (pageReq url ps ps.page_start) limit i0
        (hs ps.page_start) (f ps.page_start) (hall i0 ps.page_start)
    have hpc : pageCount (hs ps.page_start) ps = some ((total + sz - 1) / sz) := by
      simp [pageCount, htot, hsz, hnz]
    have hfp := fetchPages_all_ok server limit url ps hs f hall
      (List.range' (ps.page_start + 1) ((total + sz - 1) / sz - 1)) (i0 + 1)
    simp [paginate, hpe, hd, hpc, hfp, List.length_range']
  · intro hdr b hsv hpc
    have hd : dispatch server limit (pageReq url ps ps.page_start) i0 =
        (.ok (hdr, b), i0 + 1, [pageReq url ps ps.page_start]) :=
      dispatchGo_200 server (pageReq url ps ps.page_start) limit i0 hdr b hsv
    simp [paginate, hpe, hd, hpc]

/-- An unbounded pagination spec starting at page 1 with `per_page = 5`. -/
def psUnb : PaginationSpec := ⟨1, none, some 5⟩

/-- An unbounded pagination spec with no caller-supplied `per_page`. -/
def psUnbBare : PaginationSpec := ⟨1, none, none⟩

/-- A server reporting `Total 19, Per-Page 5` metadata on every 200. -/
def srvMeta : Server := fun _ _ => .response 200 ⟨some 19, some 5⟩ "R"

/-- A server answering 200 with no pagination metadata. -/
def srvNoMeta : Server := fun _ _ => .response 200 ⟨none, none⟩ "R"

theorem paginate_unbounded_spec_witness :
    paginate srvMeta 0 "u" psUnb 0 =
      (.ok [(1, "R"), (2, "R"), (3, "R"), (4, "R")], 4,
        [pageReq "u" psUnb 1, pageReq "u" psUnb 2, pageReq "u" psUnb 3,
          pageReq "u" psUnb 4])
    ∧ paginate srvNoMeta 0 "u" psUnbBare 0 =
      (.error .paginationMetadataError, 1, [pageReq "u" psUnbBare 1]) :=
  ⟨(paginate_unbounded_spec srvMeta 0 "u" psUnb 0 rfl).1
      (fun _ => ⟨some 19, some 5⟩) (fun _ => "R") 19 5 (fun _ _ => rfl)
      rfl rfl (by decide),
   (paginate_unbounded_spec srvNoMeta 0 "u" psUnbBare 0 rfl).2
      ⟨none, none⟩ "R" rfl rfl⟩

/-! ## Queue and batch executor (modelled from the spec) -/

/-- Modelled from the spec: a pending call descriptor of the missing
`py_coingecko` runtime — a plain call or a paginated call. -/
inductive CallDesc where
  | plain (url : String)
  | paged (url : String) (ps : PaginationSpec)
deriving DecidableEq, Repr

/-- Modelled from the spec: the value produced for one queued identifier —
a decoded body for a plain call, or the ordered `(page, body)` pairs for a
paginated call. -/
inductive ExecutionResult where
  | plain (b : Body)
  | paged (pages : List (Nat × Body))
deriving DecidableEq, Repr

/-- Modelled from the spec: the client state of the missing `py_coingecko`
runtime: the `exp_limit` retry budget and the ordered queue of pending
calls (`_queued_calls`), an insertion-ordered mapping from caller-chosen
identifiers to call descriptors. -/
structure Client where
  exp_limit : Nat
  queued_calls : List (String × CallDesc)
deriving DecidableEq, Repr

/-- Modelled from the spec: `enqueue` of the missing `py_coingecko`
runtime: insert a queue entry, failing with `DuplicateIdentifier` when the
identifier is already pending. -/
def enqueue (c : Client) (qid : String) (cd : CallDesc) : Except ApiError Client :=
  if c.queued_calls.any (fun e => e.1 == qid) then .error .duplicateIdentifier
  else .ok { c with queued_calls := c.queued_calls ++ [(qid, cd)] }

/-- Modelled from the spec: run one queued entry of the missing
`py_coingecko` runtime through the retrying dispatcher (and, for a
paginated entry, the pagination aggregator). -/
def runEntry (server : Server) (limit : Nat) :
    CallDesc → Nat → Except ApiError ExecutionResult × Nat × List Request
  | .plain url, i =>
    match dispatch server limit (plainReq url) i with
    | (.error e, i2, t) => (.error e, i2, t)
    | (.ok (_, b), i2, t) => (.ok (.plain b), i2, t)
  | .paged url ps, i =>
    match paginate server limit url ps i with
    | (.error e, i2, t) => (.error e, i2, t)
    | (.ok pages, i2, t) => (.ok (.paged pages), i2, t)

/-- Modelled from the spec: the batch executor loop of the missing
`py_coingecko` runtime: drain the entries in insertion order, collecting
per-identifier results, aborting on the first failure and propagating it. -/
def execute_queued_go (server : Server) (limit : Nat) :
    List (String × CallDesc) → Nat →
      Except ApiError (List (String × ExecutionResult)) × Nat × List Request
  | [], i => (.ok [], i, [])
  | (qid, cd) :: rest, i =>
    match runEntry server limit cd i with
    | (.error e, i2, t) => (.error e, i2, t)
    | (.ok r, i2, t) =>
      match execute_queued_go server limit rest i2 with
      | (.error e, i3, t2) => (.error e, i3, t ++ t2)
      | (.ok rs, i3, t2) => (.ok ((qid, r) :: rs), i3, t ++ t2)

/-- The outcome of one batch drain: the consolidated result or the error,
the client state afterwards, the next global request index, and the
requests issued in order. -/
structure ExecOutcome where
  result : Except ApiError (List (String × ExecutionResult))
  client : Client
  next : Nat
  reqs : List Request

/-- Modelled from the spec: `execute_queued` of the missing `py_coingecko`
runtime: drain the whole queue in insertion order and empty it
unconditionally, success or failure. -/
def execute_queued (c : Client) (server : Server) (i : Nat) : ExecOutcome :=
  match execute_queued_go server c.exp_limit c.queued_calls i with
  | (r, i2, t) => ⟨r, { c with queued_calls := [] }, i2, t⟩

lemma dispatch_failure (server : Server) (limit : Nat) (req : Request) (i : Nat)
    (h : server i req = .failure) :
    dispatch server limit req i = (.error .transportError, i + 1, [req]) := by
  cases limit <;> simp [dispatch, dispatchGo, h]

lemma execute_queued_go_append_err (server : Server) (limit : Nat) :
    ∀ (pre qpost : List (String × CallDesc)) (i : Nat)
      (rs : List (String × ExecutionResult)) (i2 : Nat) (t1 : List Request)
      (e : ApiError) (i3 : Nat) (t2 : List Request),
      execute_queued_go server limit pre i = (.ok rs, i2, t1) →
      execute_queued_go server limit qpost i2 = (.error e, i3, t2) →
      execute_queued_go server limit (pre ++ qpost) i = (.error e, i3, t1 ++ t2) := by
  intro pre
  induction pre with
  | nil =>
    intro qpost i rs i2 t1 e i3 t2 h1 h2
    simp only [execute_queued_go, Prod.mk.injEq] at h1
    obtain ⟨-, hi, ht⟩ := h1
    rw [List.nil_append, hi, h2, ← ht]
    simp
  | cons entry pre' ih =>
    obtain ⟨qid, cd⟩ := entry
    intro qpost i rs i2 t1 e i3 t2 h1 h2
    rw [execute_queued_go] at h1
    rcases hr : runEntry server limit cd i with ⟨r1, ia, ta⟩
    rw [hr] at h1
    cases r1 with
    | error e1 => simp at h1
    | ok v1 =>
      rcases hg : execute_queued_go server limit pre' ia with ⟨r2, ib, tb⟩
      simp only [hg] at h1
      cases r2 with
      | error e2 => simp at h1
      | ok rs' =>
        simp only [Prod.mk.injEq, Except.ok.injEq] at h1
        obtain ⟨-, hi, ht⟩ := h1
        have hrest := ih qpost ia rs' ib tb e i3 t2 hg (by rw [hi]; exact h2)
        rw [List.cons_append, execute_queued_go, hr]
        simp [hrest, ← ht, List.append_assoc]

lemma execute_queued_go_ok_spec (server : Server) (limit : Nat) :
    ∀ (q : List (String × CallDesc)) (i : Nat)
      (rs : List (String × ExecutionResult)) (i2 : Nat) (t : List Request),
      execute_queued_go server limit q i = (.ok rs, i2, t) →
      rs.map Prod.fst = q.map Prod.fst ∧
      ∀ (j : Nat) (qid : String) (cd : CallDesc), q.get? j = some (qid, cd) →
        ∃ (r : ExecutionResult) (i0 : Nat),
          rs.get? j = some (qid, r) ∧ (runEntry server limit cd i0).1 = .ok r := by
  intro q
  induction q with
  | nil =>
    intro i rs i2 t h
    simp only [execute_queued_go, Prod.mk.injEq, Except.ok.injEq] at h
    obtain ⟨hrs, -, -⟩ := h
    rw [← hrs]
    exact ⟨rfl, fun j qid cd hj => by simp at hj⟩
  | cons entry q' ih =>
    obtain ⟨qid0, cd0⟩ := entry
    intro i rs i2 t h
    rw [execute_queued_go] at h
    rcases hr : runEntry server limit cd0 i with ⟨r1, ia, ta⟩
    rw [hr] at h
    cases r1 with
    | error e1 => simp at h
    | ok v1 =>
      rcases hg : execute_queued_go server limit q' ia with ⟨r2, ib, tb⟩
      simp only [hg] at h
      cases r2 with
      | error e2 => simp at h
      | ok rs' =>
        simp only [Prod.mk.injEq, Except.ok.injEq] at h
        obtain ⟨hrs, -, -⟩ := h
        obtain ⟨ihmap, ihget⟩ := ih ia rs' ib tb hg
        rw [← hrs]
        constructor
        · simp [ihmap]
        · intro j qid cd hj
          cases j with
          | zero =>
            simp only [List.get?_cons_zero, Option.some.injEq, Prod.mk.injEq] at hj
            obtain ⟨hq, hc⟩ := hj
            refine ⟨v1, i, ?_, ?_⟩
            · simp [hq]
            · rw [← hc, hr]
          | succ j' =>
            simp only [List.get?_cons_succ] at hj
            obtain ⟨r, i0, hget, hrun⟩ := ihget j' qid cd hj
            exact ⟨r, i0, by simpa using hget, hrun⟩

/-- Claim C2: after any drain the queue is empty, and on success the
result mapping of `execute_queued` contains exactly the enqueued
identifiers in order, each mapped to an outcome its entry produces through
the dispatcher. -/
theorem execute_queued_drain_results (c : Client) (server : Server) (i : Nat) :
    (execute_queued c server i).client.queued_calls = [] ∧
    ∀ (rs : List (String × ExecutionResult)),
      (execute_queued c server i).result = .ok rs →
      rs.map Prod.fst = c.queued_calls.map Prod.fst ∧
      ∀ (j : Nat) (qid : String) (cd : CallDesc),
        c.queued_calls.get? j = some (qid, cd) →
        ∃ (r : ExecutionResult) (i0 : Nat),
          rs.get? j = some (qid, r) ∧
          (runEntry server c.exp_limit cd i0).1 = .ok r := by
  rcases hg : execute_queued_go server c.exp_limit c.queued_calls i with ⟨r, i2, t⟩
  constructor
  · simp [execute_queued, hg]
  · intro rs hok
    simp only [execute_queued, hg] at hok
    rw [hok] at hg
    exact execute_queued_go_ok_spec server c.exp_limit c.queued_calls i rs i2 t hg

/-- A server answering 200 with body "ok" to every request. -/
def srvOk : Server := fun _ _ => .response 200 ⟨none, none⟩ "ok"

/-- A two-entry client queue. -/
def clientTwo : Client := ⟨1, [("a", .plain "u1"), ("b", .plain "u2")]⟩

theorem execute_queued_drain_results_witness :
    (execute_queued clientTwo srvOk 0).client.queued_calls = [] ∧
    ([("a", ExecutionResult.plain "ok"), ("b", ExecutionResult.plain "ok")].map
        Prod.fst = clientTwo.queued_calls.map Prod.fst) :=
  ⟨(execute_queued_drain_results clientTwo srvOk 0).1,
   ((execute_queued_drain_results clientTwo srvOk 0).2
      [("a", ExecutionResult.plain "ok"), ("b", ExecutionResult.plain "ok")]
      rfl).1⟩

/-- Claim C3: when the batch executor reaches entry `k` (here the entry
`(qid, cd)` after the successful prefix `pre`) and that entry fails with
any error, the remaining entries are never dispatched — the issued
requests are exactly those of entries `0..k` — the already-collected
results are discarded, the specific error is the batch outcome of
`execute_queued`, and the queue is cleared. -/
theorem batch_abort_on_error (server : Server) (c : Client) (i : Nat)
    (pre : List (String × CallDesc)) (qid : String) (cd : CallDesc)
    (post : List (String × CallDesc))
    (hq : c.queued_calls = pre ++ (qid, cd) :: post)
    (rs : List (String × ExecutionResult)) (i2 : Nat) (t1 : List Request)
    (hpre : execute_queued_go server c.exp_limit pre i = (.ok rs, i2, t1))
    (e : ApiError) (i3 : Nat) (t2 : List Request)
    (hk : runEntry server c.exp_limit cd i2 = (.error e, i3, t2)) :
    execute_queued c server i =
      ⟨.error e, { c with queued_calls := [] }, i3, t1 ++ t2⟩ := by
  have hcons : execute_queued_go server c.exp_limit ((qid, cd) :: post) i2 =
      (.error e, i3, t2) := by
    rw [execute_queued_go, hk]
  have hall := execute_queued_go_append_err server c.exp_limit pre
    ((qid, cd) :: post) i rs i2 t1 e i3 t2 hpre hcons
  rw [← hq] at hall
  simp [execute_queued, hall]

/-- A server where only the URL "u2" is unreachable. -/
def srvU2Fail : Server := fun _ r =>
  if r.url == "u2" then .failure else .response 200 ⟨none, none⟩ "ok"

/-- A three-entry client queue whose second entry targets "u2". -/
def clientAbort : Client :=
  ⟨1, [("a", .plain "u1"), ("b", .plain "u2"), ("c", .plain "u3")]⟩

theorem batch_abort_on_error_witness :
    execute_queued clientAbort srvU2Fail 0 =
      ⟨.error .transportError, ⟨1, []⟩, 2, [plainReq "u1", plainReq "u2"]⟩ :=
  batch_abort_on_error srvU2Fail clientAbort 0 [("a", .plain "u1")] "b"
    (.plain "u2") [("c", .plain "u3")] rfl
    [("a", ExecutionResult.plain "ok")] 1 [plainReq "u1"] rfl
    .transportError 2 [plainReq "u2"] rfl

/-- Claim C6: a transport-level network failure (no response received)
signals `TransportError` immediately with a single request and no retry,
both for an immediate dispatch and inside a batch drain, where it is
terminal: the batch stops at that entry, the queue is cleared, and the
error is the batch outcome. -/
theorem transport_error_immediate (server : Server) (limit i0 : Nat) (req : Request) :
    (server i0 req = .failure →
      dispatch server limit req i0 = (.error .transportError, i0 + 1, [req]))
    ∧ (∀ (c : Client) (pre : List (String × CallDesc)) (qid url : String)
        (post : List (String × CallDesc)) (rs : List (String × ExecutionResult))
        (i2 : Nat) (t1 : List Request),
        c.queued_calls = pre ++ (qid, CallDesc.plain url) :: post →
        execute_queued_go server c.exp_limit pre i0 = (.ok rs, i2, t1) →
        server i2 (plainReq url) = .failure →
        execute_queued c server i0 =
          ⟨.error .transportError, { c with queued_calls := [] }, i2 + 1,
            t1 ++ [plainReq url]⟩) := by
  constructor
  · intro h
    exact dispatch_failure server limit req i0 h
  · intro c pre qid url post rs i2 t1 hq hpre hfail
    have hd := dispatch_failure server c.exp_limit (plainReq url) i2 hfail
    have hk : runEntry server c.exp_limit (.plain url) i2 =
        (.error .transportError, i2 + 1, [plainReq url]) := by
      rw [runEntry, hd]
    have hcons : execute_queued_go server c.exp_limit
        ((qid, CallDesc.plain url) :: post) i2 =
        (.error .transportError, i2 + 1, [plainReq url]) := by
      rw [execute_queued_go, hk]
    have hall := execute_queued_go_append_err server c.exp_limit pre
      ((qid, CallDesc.plain url) :: post) i0 rs i2 t1 .transportError (i2 + 1)
      [plainReq url] hpre hcons
    rw [← hq] at hall
    simp [execute_queued, hall]

/-- A server that never responds. -/
def srvDown : Server := fun _ _ => .failure

/-- A one-entry client queue targeting "w". -/
def clientOne : Client := ⟨0, [("x", .plain "w")]⟩

theorem transport_error_immediate_witness :
    dispatch srvDown 5 req0 0 = (.error .transportError, 1, [req0])
    ∧ execute_queued clientOne srvDown 0 =
        ⟨.error .transportError, ⟨0, []⟩, 1, [plainReq "w"]⟩ :=
  ⟨(transport_error_immediate srvDown 5 0 req0).1 rfl,
   (transport_error_immediate srvDown 0 0 req0).2 clientOne [] "x" "w" [] [] 0 []
      rfl rfl rfl⟩

/-- Claim C7: a response with a status other than 200 and 429 makes the
dispatcher issue exactly one request and signal `HttpStatusError` carrying
that status code immediately, with no retry. -/
theorem http_status_error_immediate (server : Server) (limit i0 : Nat)
    (req : Request) (s : Nat) (hdr : PageMeta) (b : Body)
    (hsv : server i0 req = .response s hdr b) (h200 : s ≠ 200) (h429 : s ≠ 429) :
    dispatch server limit req i0 = (.error (.httpStatusError s), i0 + 1, [req]) := by
  cases limit <;> simp [dispatch, dispatchGo, hsv, h200, h429]

/-- A server that always answers 404. -/
def srv404 : Server := fun _ _ => .response 404 ⟨none, none⟩ "e"

theorem http_status_error_immediate_witness :
    dispatch srv404 2 (plainReq "u") 0 =
      (.error (.httpStatusError 404), 1, [plainReq "u"]) :=
  http_status_error_immediate srv404 2 0 (plainReq "u") 404 ⟨none, none⟩ "e"
    rfl (by decide) (by decide)

/-! ## Endpoint invocation validation (modelled from the spec) -/

/-- Modelled from the spec: the declared shape of one endpoint as consumed
by the invocation layer of the missing `py_coingecko` runtime: the number
of path-parameter slots and the declared query parameters, each marked
required or optional. -/
structure EndpointDecl where
  slotCount : Nat
  queryParams : List (String × Bool)
deriving DecidableEq, Repr

/-- Modelled from the spec: the argument-shape check of the endpoint
invocation layer of the missing `py_coingecko` runtime (spec section 4.1):
the positional path-argument count must equal the path-slot count, every
keyword argument must be a declared query parameter, and every required
query parameter must be supplied. -/
def validShape (ep : EndpointDecl) (args : List String)
    (kwargs : List (String × String)) : Bool :=
  (args.length == ep.slotCount)
  && kwargs.all (fun kv => ep.queryParams.any (fun q => q.1 == kv.1))
  && ep.queryParams.all (fun q => !q.2 || kwargs.any (fun kv => kv.1 == q.1))

/-- Modelled from the spec: the per-endpoint invocation entry point of the
missing `py_coingecko` runtime: it validates the caller's argument shape
against the endpoint's declared shape before any URL is built, signaling
`MalformedCall` without issuing any request on a mismatch, and otherwise
dispatches the materialized request. -/
def invoke (server : Server) (limit : Nat) (ep : EndpointDecl) (req : Request)
    (args : List String) (kwargs : List (String × String)) (i : Nat) :
    Except ApiError (PageMeta × Body) × Nat × List Request :=
  if validShape ep args kwargs then dispatch server limit req i
  else (.error .malformedCall, i, [])

/-- Claim C9: an invocation whose argument shape does not match the
endpoint's declared shape — wrong path-argument count, a keyword outside
the declared query parameters, or a missing required parameter — signals
`MalformedCall` synchronously, with zero HTTP requests issued (hence no
retry). -/
theorem malformed_call_before_request (server : Server) (limit : Nat)
    (ep : EndpointDecl) (req : Request) (args : List String)
    (kwargs : List (String × String)) (i : Nat)
    (h : args.length ≠ ep.slotCount
      ∨ (∃ kv ∈ kwargs, ∀ q ∈ ep.queryParams, q.1 ≠ kv.1)
      ∨ (∃ q ∈ ep.queryParams, q.2 = true ∧ ∀ kv ∈ kwargs, kv.1 ≠ q.1)) :
    invoke server limit ep req args kwargs i = (.error .malformedCall, i, []) := by
  have hv : validShape ep args kwargs = false := by
    cases hvs : validShape ep args kwargs
    · rfl
    · exfalso
      simp only [validShape, Bool.and_eq_true, beq_iff_eq, List.all_eq_true,
        List.any_eq_true, Bool.or_eq_true, Bool.not_eq_true'] at hvs
      obtain ⟨⟨hlen, hkw⟩, hreqd⟩ := hvs
      rcases h with h | h | h
      · exact h hlen
      · obtain ⟨kv, hmem, hnone⟩ := h
        obtain ⟨q, hqmem, hq⟩ := hkw kv hmem
        exact hnone q hqmem hq
      · obtain ⟨q, hqmem, hqreq, hnone⟩ := h
        rcases hreqd q hqmem with hfalse | ⟨kv, hkvmem, hkv⟩
        · rw [hqreq] at hfalse; exact Bool.false_ne_true hfalse.symm
        · exact hnone kv hkvmem hkv
  simp [invoke, hv]

/-- A sample endpoint declaration: one path slot, an optional `page` and a
required `vs_currency` query parameter. -/
def epSample : EndpointDecl := ⟨1, [("page", false), ("vs_currency", true)]⟩

theorem malformed_call_before_request_witness :
    invoke srvOk 1 epSample (plainReq "u") [] [("vs_currency", "usd")] 0 =
      (.error .malformedCall, 0, []) :=
  malformed_call_before_request srvOk 1 epSample (plainReq "u") []
    [("vs_currency", "usd")] 0 (Or.inl (by decide))

/-! ## Paginated-method classification (`scripts/swagger.py`) -/

/-- One entry of an endpoint's `parameters` list in the processed swagger
spec, as inspected by `get_paginated_method_names` (only the name matters
there) and by the test harness (which also reads `required`). -/
structure SwaggerParam where
  name : String
  required : Bool
deriving DecidableEq, Repr

/-- The per-endpoint test inside `get_paginated_method_names`
(`src/scripts/swagger.py` lines 152-155): filter the endpoint's declared
parameters to those named `page` or `per_page` and classify the method as
paginated exactly when the filtered list has length 2. -/
def is_paginated_endpoint (params : List SwaggerParam) : Bool :=
  (params.filter (fun p => p.name == "page" || p.name == "per_page")).length == 2

lemma filter_page_per_page_length (params : List SwaggerParam) :
    (params.filter (fun p => p.name == "page" || p.name == "per_page")).length
      = (params.map SwaggerParam.name).count "page"
        + (params.map SwaggerParam.name).count "per_page" := by
  induction params with
  | nil => simp
  | cons p ps ih =>
    by_cases hp : p.name = "page"
    · simp [List.filter_cons, List.count_cons, hp, ih]; omega
    · by_cases hq : p.name = "per_page"
      · simp [List.filter_cons, List.count_cons, hp, hq, ih]; omega
      · simp [List.filter_cons, List.count_cons, hp, hq, ih]

/-- Claim C10: for parameter lists with pairwise-distinct names (as in a
well-formed swagger spec), `get_paginated_method_names` classifies an
endpoint's method as paginated if and only if the declared parameters
include both a parameter named `page` and one named `per_page`. -/
theorem paginated_method_classification (params : List SwaggerParam)
    (hnd : (params.map SwaggerParam.name).Nodup) :
    is_paginated_endpoint params = true ↔
      ("page" ∈ params.map SwaggerParam.name
        ∧ "per_page" ∈ params.map SwaggerParam.name) := by
  have hcount := filter_page_per_page_length params
  have h1 : (params.map SwaggerParam.name).count "page" ≤ 1 :=
    List.nodup_iff_count_le_one.mp hnd "page"
  have h2 : (params.map SwaggerParam.name).count "per_page" ≤ 1 :=
    List.nodup_iff_count_le_one.mp hnd "per_page"
  rw [is_paginated_endpoint, beq_iff_eq, hcount]
  rw [← List.count_pos_iff, ← List.count_pos_iff]
  omega

/-- A parameter list declaring `page`, `per_page` and `vs_currency`. -/
def paramsSample : List SwaggerParam :=
  [⟨"page", false⟩, ⟨"per_page", false⟩, ⟨"vs_currency", true⟩]

theorem paginated_method_classification_witness :
    is_paginated_endpoint paramsSample = true :=
  (paginated_method_classification paramsSample (by decide)).mpr
    ⟨by decide, by decide⟩

/-! ## URL materialization (`scripts/swagger.py`, `materialize_url_template`)

The function is embedded at the level of character lists.  Library
builtins used by the source (`re.findall`, `str.replace`, `str.format`,
`urllib.parse.urlparse`, `parse_qsl`, `urlencode`, `dict`) are modelled by
executable Lean functions named after them. -/

/-- Characters of a URL or template string. -/
abbrev Str := List Char

/-- Helper for the slot regex `{[^}]*}`: given the characters after a
`{`, return the slot content (the characters before the first `}`) and
the remainder after that `}`; `none` when no `}` follows. -/
def takeSlot : Str → Option (Str × Str)
  | [] => none
  | c :: rest =>
    if c = '}' then some ([], rest)
    else (takeSlot rest).map (fun pr => (c :: pr.1, pr.2))

lemma takeSlot_length :
    ∀ (l content rest : Str), takeSlot l = some (content, rest) →
      rest.length < l.length := by
  intro l
  induction l with
  | nil => intro content rest h; simp [takeSlot] at h
  | cons c l' ih =>
    intro content rest h
    rw [takeSlot] at h
    by_cases hc : c = '}'
    · rw [if_pos hc] at h
      simp only [Option.some.injEq, Prod.mk.injEq] at h
      obtain ⟨-, hr⟩ := h
      rw [← hr]
      simp
    · rw [if_neg hc] at h
      cases hts : takeSlot l' with
      | none => rw [hts] at h; simp at h
      | some pr =>
        rw [hts] at h
        simp only [Option.map_some', Option.some.injEq, Prod.mk.injEq] at h
        obtain ⟨-, hr⟩ := h
        have := ih pr.1 pr.2 (by rw [hts])
        rw [← hr]
        simp only [List.length_cons]
        omega

/-- Embeds `re.findall("({[^}]*})", url_template)` from
`materialize_url_template`: the non-overlapping brace-delimited slot
occurrences, scanned left to right, each returned with its braces. -/
def findPathArgs : Str → List Str
  | [] => []
  | c :: rest =>
    if c = '{' then
      match h : takeSlot rest with
      | none => []
      | some (content, rest2) => ('{' :: (content ++ ['}'])) :: findPathArgs rest2
    else findPathArgs rest
termination_by s => s.length
decreasing_by
  · have := takeSlot_length rest content rest2 h
    simp only [List.length_cons]
    omega
  · simp only [List.length_cons]
    omega

/-- Whether `pat` occurs at the very start of `l`. -/
def matchesAt : Str → Str → Bool
  | [], _ => true
  | _ :: _, [] => false
  | p :: ps, c :: cs => p == c && matchesAt ps cs

/-- Whether a (nonempty) pattern occurs at the start of `l`. -/
def matchStart (pat l : Str) : Bool := !pat.isEmpty && matchesAt pat l

/-- Embeds Python `str.replace(pat, rep)` for a nonempty pattern: replace
the non-overlapping occurrences of `pat` left to right.  (The callers in
`materialize_url_template` always pass a braced slot, which is nonempty;
Python's behavior for an empty pattern is not modelled.)  When the guard
holds `pat` is nonempty, so dropping `pat.length - 1` of `rest` drops
`pat.length` of the whole list. -/
def replaceAll : Str → Str → Str → Str
  | [], _, _ => []
  | c :: rest, pat, rep =>
    if matchStart pat (c :: rest) then
      rep ++ replaceAll (rest.drop (pat.length - 1)) pat rep
    else c :: replaceAll rest pat rep
termination_by s _ _ => s.length
decreasing_by
  · simp only [List.length_drop, List.length_cons]
    omega
  · simp only [List.length_cons]
    omega

/-- The decimal digit character for `n < 10`. -/
def digitChar (n : Nat) : Char := Char.ofNat (48 + n)

/-- Decimal rendering of a natural number (fuel-driven). -/
def natStrAux : Nat → Nat → Str
  | 0, _ => []
  | fuel + 1, n =>
    if n < 10 then [digitChar n]
    else natStrAux fuel (n / 10) ++ [digitChar (n % 10)]

/-- Embeds Python `str(i)` for a natural number. -/
def natStr (n : Nat) : Str := natStrAux (n + 1) n

/-- A slot name wrapped in braces, as it occurs in a URL template. -/
def braced (n : Str) : Str := '{' :: (n ++ ['}'])

/-- Embeds the loop `for i, p in enumerate(path_args): url = url.replace(p,
"{" + str(i) + "}")` from `materialize_url_template`. -/
def indexSlots : Str → List Str → Nat → Str
  | u, [], _ => u
  | u, p :: ps, k => indexSlots (replaceAll u p (braced (natStr k))) ps (k + 1)

/-- Accumulator pass of decimal parsing. -/
def parseNatGo : Str → Nat → Option Nat
  | [], acc => some acc
  | c :: rest, acc =>
    if 48 ≤ c.toNat ∧ c.toNat ≤ 57 then
      parseNatGo rest (acc * 10 + (c.toNat - 48))
    else none

/-- Parse a nonempty all-digit string as a natural number (how
`str.format` resolves a positional field name). -/
def parseNat? (s : Str) : Option Nat :=
  if s = [] then none else parseNatGo s 0

/-- Embeds Python `str.format(*args)` as used on the indexed template:
positional fields `{k}` are substituted with `args[k]`; `{{` and `}}` are
brace escapes; a stray brace, an unparsable field name or an
out-of-range index are errors (`none`).  Auto-numbered `{}` fields and
format specs are treated as errors; the indexed templates this code
formats always carry explicit bare indices. -/
def pyFormat : Str → List Str → Option Str
  | [], _ => some []
  | c :: rest, args =>
    if c = '{' then
      if rest.head? = some '{' then (pyFormat (rest.drop 1) args).map (fun r => '{' :: r)
      else
        match h : takeSlot rest with
        | none => none
        | some (content, rest3) =>
          match parseNat? content with
          | none => none
          | some k =>
            match args.get? k with
            | none => none
            | some v => (pyFormat rest3 args).map (fun r => v ++ r)
    else if c = '}' then
      if rest.head? = some '}' then (pyFormat (rest.drop 1) args).map (fun r => '}' :: r)
      else none
    else (pyFormat rest args).map (fun r => c :: r)
termination_by s _ => s.length
decreasing_by
  all_goals
    first
      | (simp only [List.length_drop, List.length_cons]; omega)
      | exact Nat.lt_trans (takeSlot_length rest content rest3 h)
          (by simp only [List.length_cons]; omega)

/-- Split at the first occurrence of a character: the part before it and
the part after it (the whole string and `[]` when it does not occur). -/
def splitOnChar (ch : Char) : Str → Str × Str
  | [] => ([], [])
  | c :: rest =>
    if c = ch then ([], rest)
    else
      let pr := splitOnChar ch rest
      (c :: pr.1, pr.2)

/-- Models `urllib.parse._splitparams` as `urlparse` applies it to a
scheme-less reference (the empty scheme is in `uses_params`, and the
split only runs when the path portion contains `;`): when the path
contains `/`, split at the first `;` at or after the last `/` (no split
when the last segment has no `;`); when it contains no `/`, split at the
first `;`. -/
def splitParams (u : Str) : Str × Str :=
  if ';' ∈ u then
    if '/' ∈ u then
      let r := splitOnChar '/' u.reverse
      let lastSeg := r.1.reverse
      let before := r.2.reverse
      if ';' ∈ lastSeg then
        let s := splitOnChar ';' lastSeg
        (before ++ '/' :: s.1, s.2)
      else (u, [])
    else
      let s := splitOnChar ';' u
      (s.1, s.2)
  else (u, [])

/-- Models `urllib.parse.urlparse` for the scheme-less, netloc-less
relative references the URL templates are: the fragment after the first
`#`, the query after the first `?`, and the path before them with its
`;params` component split off the last path segment.  Returns
`(path, params, query, fragment)`. -/
def parseRelUrl (s : Str) : Str × Str × Str × Str :=
  let frag := splitOnChar '#' s
  let pq := splitOnChar '?' frag.1
  let pp := splitParams pq.1
  (pp.1, pp.2, pq.2, frag.2)

/-- Split at every occurrence of a character. -/
def splitAll (ch : Char) : Str → List Str
  | [] => [[]]
  | c :: rest =>
    if c = ch then [] :: splitAll ch rest
    else
      match splitAll ch rest with
      | [] => [[c]]
      | f :: fs => (c :: f) :: fs

/-- The value of a hexadecimal digit character. -/
def hexVal? (c : Char) : Option Nat :=
  if 48 ≤ c.toNat ∧ c.toNat ≤ 57 then some (c.toNat - 48)
  else if 97 ≤ c.toNat ∧ c.toNat ≤ 102 then some (c.toNat - 87)
  else if 65 ≤ c.toNat ∧ c.toNat ≤ 70 then some (c.toNat - 55)
  else none

/-- Models `urllib.parse.unquote_plus`: `+` becomes a space and `%XX`
decodes a byte (decoded bytes are treated as code points; multi-byte
UTF-8 reassembly is not modelled — the templates under study carry no
percent escapes). -/
def unquote_plus : Str → Str
  | [] => []
  | c :: rest =>
    if c = '+' then ' ' :: unquote_plus rest
    else if c = '%' ∧ 2 ≤ rest.length ∧ (hexVal? (rest.getD 0 ' ')).isSome
        ∧ (hexVal? (rest.getD 1 ' ')).isSome then
      Char.ofNat (16 * (hexVal? (rest.getD 0 ' ')).getD 0
          + (hexVal? (rest.getD 1 ' ')).getD 0) :: unquote_plus (rest.drop 2)
    else c :: unquote_plus rest
termination_by s => s.length
decreasing_by
  all_goals simp only [List.length_drop, List.length_cons]
  all_goals omega

/-- Models `urllib.parse.parse_qsl` with default options: split fields on
`&`, keep only fields with a nonempty value after the first `=`, and
unquote names and values. -/
def parse_qsl (s : Str) : List (Str × Str) :=
  (splitAll '&' s).filterMap (fun field =>
    let kv := splitOnChar '=' field
    if kv.2 = [] then none else some (unquote_plus kv.1, unquote_plus kv.2))

/-- The UTF-8 bytes of a character (each byte as a `Nat < 256`). -/
def charBytes (c : Char) : List Nat :=
  let n := c.toNat
  if n < 128 then [n]
  else if n < 2048 then [192 + n / 64, 128 + n % 64]
  else if n < 65536 then [224 + n / 4096, 128 + (n / 64) % 64, 128 + n % 64]
  else [240 + n / 262144, 128 + (n / 4096) % 64, 128 + (n / 64) % 64, 128 + n % 64]

/-- The uppercase hexadecimal digit character for `n < 16`. -/
def hexDigitChar (n : Nat) : Char :=
  if n < 10 then Char.ofNat (48 + n) else Char.ofNat (55 + n)

/-- A percent-encoded byte, `%XX`. -/
def percentEnc (b : Nat) : Str := ['%', hexDigitChar (b / 16), hexDigitChar (b % 16)]

/-- Whether `quote_plus` leaves a character as is (ASCII alphanumerics and
`_ . - ~`). -/
def isSafeChar (c : Char) : Bool :=
  c.isAlphanum || c = '_' || c = '.' || c = '-' || c = '~'

/-- Models `urllib.parse.quote_plus`: safe characters kept, space becomes
`+`, everything else percent-encoded per UTF-8 byte. -/
def quote_plus (s : Str) : Str :=
  s.foldr (fun c acc =>
    if isSafeChar c then c :: acc
    else if c = ' ' then '+' :: acc
    else (charBytes c).foldr (fun b a => percentEnc b ++ a) acc) []

/-- Join fields with `&`. -/
def joinAmp : List Str → Str
  | [] => []
  | [x] => x
  | x :: y :: rest => x ++ '&' :: joinAmp (y :: rest)

/-- Models `urllib.parse.urlencode` on an ordered mapping: `k=v` fields,
quoted with `quote_plus`, joined with `&`. -/
def urlencode (q : List (Str × Str)) : Str :=
  joinAmp (q.map (fun kv => quote_plus kv.1 ++ '=' :: quote_plus kv.2))

/-- Whether an ordered mapping has a key (Python `in` on a dict). -/
def dictHas (d : List (Str × Str)) (k : Str) : Bool :=
  d.any (fun kv => kv.1 == k)

/-- Set a key in an ordered mapping with Python dict semantics: an
existing key keeps its position and takes the new value; a new key is
appended. -/
def dictSet (d : List (Str × Str)) (k : Str) (v : Str) : List (Str × Str) :=
  if dictHas d k then d.map (fun kv => if kv.1 == k then (k, v) else kv)
  else d ++ [(k, v)]

/-- Models `dict(pairs)`: fold the pairs into an ordered mapping. -/
def dictOfList (l : List (Str × Str)) : List (Str × Str) :=
  l.foldl (fun d kv => dictSet d kv.1 kv.2) []

/-- Models Python `dict.update`. -/
def dictUpdate (d : List (Str × Str)) (l : List (Str × Str)) : List (Str × Str) :=
  l.foldl (fun d kv => dictSet d kv.1 kv.2) d

/-- The scheme, host and base path of the API base URL, as read by
`get_url_base` from the processed spec (`https`, the API host, and the
base path). -/
structure UrlBase where
  scheme : Str
  host : Str
  basePath : Str

/-- Models `urllib.parse.urlunparse` for a nonempty scheme and netloc, as
`materialize_url_template` assembles its result: `scheme://host`, the
path, then `;params` when the params component is nonempty, `?query` when
the query is nonempty, and `#fragment` when the fragment is nonempty. -/
def unparseUrl (scheme host path params query frag : Str) : Str :=
  scheme ++ ':' :: '/' :: '/' :: (host ++ path
    ++ (if params = [] then [] else ';' :: params)
    ++ (if query = [] then [] else '?' :: query)
    ++ (if frag = [] then [] else '#' :: frag))

/-- Embeds `materialize_url_template(url_template, args, kwargs)` from
`src/scripts/swagger.py` (lines 158-191), with the base URL components
passed explicitly in place of the spec-file read: find the brace slots,
index them `{0}, {1}, ...`, parse the indexed template as a relative URL,
format the path with the positional `args` (prefixed by the base path;
the whole indexed string is formatted, as in the source), merge `kwargs`
into the template's query-string mapping, encode it, and unparse with the
base scheme and host, the template's `;params` component carried through
as `urlunparse` reattaches it.  `none` models the exception `str.format`
raises on a malformed template or argument list. -/
def materialize_url_template (base : UrlBase) (tpl : Str) (args : List Str)
    (kwargs : List (Str × Str)) : Option Str :=
  let path_args := findPathArgs tpl
  let url := indexSlots tpl path_args 0
  let parts := parseRelUrl url
  match pyFormat url args with
  | none => none
  | some formatted =>
    let query := dictUpdate (dictOfList (parse_qsl parts.2.2.1)) kwargs
    some (unparseUrl base.scheme base.host (base.basePath ++ formatted)
      parts.2.1 (urlencode query) parts.2.2.2)

/-! ## Structured URL templates (specification side for C8) -/

/-- Specification-side view of an endpoint URL template: an alternating
sequence of literal text and named path slots. -/
inductive Seg where
  | lit (s : Str)
  | slot (name : Str)
deriving DecidableEq, Repr

/-- The template string a structured template denotes: literals verbatim,
each slot as its braced name. -/
def renderTemplate : List Seg → Str
  | [] => []
  | .lit s :: rest => s ++ renderTemplate rest
  | .slot n :: rest => '{' :: (n ++ '}' :: renderTemplate rest)

/-- The slot names of a structured template, in order. -/
def slotNames : List Seg → List Str
  | [] => []
  | .lit _ :: rest => slotNames rest
  | .slot n :: rest => n :: slotNames rest

/-- Specification-side positional substitution: the slot at overall
position `i` receives the `i`-th path-argument value. -/
def substTemplate (args : List Str) : Nat → List Seg → Str
  | _, [] => []
  | i, .lit s :: rest => s ++ substTemplate args i rest
  | i, .slot _ :: rest => (args.get? i).getD [] ++ substTemplate args (i + 1) rest

/-- Characters allowed in template literals and slot names: anything but
braces, `?`, `#` and `;` — the URL metacharacters `urlparse` splits on.
The swagger path templates of the API contain none of them. -/
def okChar (c : Char) : Bool :=
  !(c = '{' || c = '}' || c = '?' || c = '#' || c = ';')

/-- Whether a segment's text is made of allowed characters. -/
def goodSeg : Seg → Bool
  | .lit s => s.all okChar
  | .slot n => n.all okChar

/-- No slot name collides with the decimal rendering of a slot index. -/
def noNumeralNames (ns : List Str) : Prop :=
  ∀ n ∈ ns, ∀ j, j < ns.length → n ≠ natStr j

/-- A well-formed structured template: allowed characters throughout,
pairwise-distinct slot names, and no slot name that is a slot index
numeral. -/
def WFTemplate (segs : List Seg) : Prop :=
  (∀ g ∈ segs, goodSeg g = true) ∧ (slotNames segs).Nodup
    ∧ noNumeralNames (slotNames segs)

/-- Rename one slot name (proof-side device for the indexing loop). -/
def renameSlot (a b : Str) : Seg → Seg
  | .lit s => .lit s
  | .slot n => .slot (if n = a then b else n)

/-- Rename every slot to the numeral of its overall position. -/
def numberSegs (i : Nat) : List Seg → List Seg
  | [] => []
  | .lit s :: rest => .lit s :: numberSegs i rest
  | .slot _ :: rest => .slot (natStr i) :: numberSegs (i + 1) rest

/-! ### Decimal rendering and parsing lemmas -/

lemma natStrAux_fuel : ∀ (n f g : Nat), n < f → n < g →
    natStrAux f n = natStrAux g n := by
  intro n
  induction n using Nat.strong_induction_on with
  | _ n ih =>
    intro f g hf hg
    cases f with
    | zero => omega
    | succ f' =>
      cases g with
      | zero => omega
      | succ g' =>
        by_cases h10 : n < 10
        · simp [natStrAux, h10]
        · have hdiv : n / 10 < n := Nat.div_lt_self (by omega) (by omega)
          simp only [natStrAux, if_neg h10]
          rw [ih (n / 10) hdiv f' g' (by omega) (by omega)]

lemma natStr_step (n : Nat) (h : 10 ≤ n) :
    natStr n = natStr (n / 10) ++ [digitChar (n % 10)] := by
  have hdiv : n / 10 < n := Nat.div_lt_self (by omega) (by omega)
  rw [natStr, natStr, natStrAux, if_neg (by omega)]
  rw [natStrAux_fuel (n / 10) n (n / 10 + 1) hdiv (by omega)]

lemma natStr_lt_ten (n : Nat) (h : n < 10) : natStr n = [digitChar n] := by
  simp [natStr, natStrAux, h]

lemma digitChar_toNat (m : Nat) (h : m < 10) : (digitChar m).toNat = 48 + m := by
  interval_cases m <;> decide

lemma natStr_chars : ∀ (n : Nat) (c : Char), c ∈ natStr n →
    48 ≤ c.toNat ∧ c.toNat ≤ 57 := by
  intro n
  induction n using Nat.strong_induction_on with
  | _ n ih =>
    intro c hc
    by_cases h10 : n < 10
    · rw [natStr_lt_ten n h10] at hc
      simp only [List.mem_singleton] at hc
      rw [hc, digitChar_toNat n h10]
      omega
    · rw [natStr_step n (by omega)] at hc
      rcases List.mem_append.mp hc with hm | hm
      · exact ih (n / 10) (Nat.div_lt_self (by omega) (by omega)) c hm
      · simp only [List.mem_singleton] at hm
        rw [hm, digitChar_toNat (n % 10) (Nat.mod_lt n (by omega))]
        have := Nat.mod_lt n (show 0 < 10 by omega)
        omega

lemma natStr_ne_nil (n : Nat) : natStr n ≠ [] := by
  by_cases h10 : n < 10
  · rw [natStr_lt_ten n h10]; simp
  · rw [natStr_step n (by omega)]; simp

lemma natStr_okChar (n : Nat) (c : Char) (hc : c ∈ natStr n) : okChar c = true := by
  obtain ⟨h1, h2⟩ := natStr_chars n c hc
  simp only [okChar, Bool.not_eq_true', Bool.or_eq_false_iff, decide_eq_false_iff_not]
  refine ⟨⟨⟨⟨?_, ?_⟩, ?_⟩, ?_⟩, ?_⟩ <;> intro h <;> rw [h] at h1 h2 <;> simp_all

lemma parseNatGo_append : ∀ (a b : Str) (acc : Nat),
    parseNatGo (a ++ b) acc =
      match parseNatGo a acc with
      | none => none
      | some acc2 => parseNatGo b acc2 := by
  intro a
  induction a with
  | nil => intro b acc; simp [parseNatGo]
  | cons c a' ih =>
    intro b acc
    by_cases hd : 48 ≤ c.toNat ∧ c.toNat ≤ 57
    · simp only [List.cons_append, parseNatGo, if_pos hd]
      exact ih b _
    · simp only [List.cons_append, parseNatGo, if_neg hd]

lemma parseNatGo_natStr : ∀ (n acc : Nat),
    parseNatGo (natStr n) acc = some (acc * 10 ^ (natStr n).length + n) := by
  intro n
  induction n using Nat.strong_induction_on with
  | _ n ih =>
    intro acc
    by_cases h10 : n < 10
    · rw [natStr_lt_ten n h10]
      have ht := digitChar_toNat n h10
      have hcond : 48 ≤ (digitChar n).toNat ∧ (digitChar n).toNat ≤ 57 := by omega
      rw [parseNatGo, if_pos hcond, parseNatGo, ht]
      simp only [List.length_singleton, pow_one]
      congr 1
      omega
    · have hdiv : n / 10 < n := Nat.div_lt_self (by omega) (by omega)
      have hm : n % 10 < 10 := Nat.mod_lt n (by omega)
      have ht := digitChar_toNat (n % 10) hm
      have hcond : 48 ≤ (digitChar (n % 10)).toNat
          ∧ (digitChar (n % 10)).toNat ≤ 57 := by omega
      rw [natStr_step n (by omega), parseNatGo_append]
      simp only [ih (n / 10) hdiv acc]
      rw [parseNatGo, if_pos hcond, parseNatGo, ht]
      simp only [List.length_append, List.length_singleton]
      congr 1
      have h48 : 48 + n % 10 - 48 = n % 10 := by omega
      rw [h48]
      have key : (acc * 10 ^ (natStr (n / 10)).length + n / 10) * 10 + n % 10
          = acc * (10 ^ (natStr (n / 10)).length * 10) + (n / 10 * 10 + n % 10) := by
        ring
      rw [key, pow_succ]
      have hdm : n / 10 * 10 + n % 10 = n := by omega
      rw [hdm]

lemma parseNat?_natStr (n : Nat) : parseNat? (natStr n) = some n := by
  rw [parseNat?, if_neg (natStr_ne_nil n), parseNatGo_natStr n 0]
  simp

/-! ### Slot scanning and replacement lemmas -/

lemma okChar_spec (c : Char) (h : okChar c = true) :
    c ≠ '{' ∧ c ≠ '}' ∧ c ≠ '?' ∧ c ≠ '#' ∧ c ≠ ';' := by
  simp only [okChar, Bool.not_eq_true', Bool.or_eq_false_iff,
    decide_eq_false_iff_not] at h
  exact ⟨h.1.1.1.1, h.1.1.1.2, h.1.1.2, h.1.2, h.2⟩

lemma takeSlot_closed : ∀ (n r : Str), '}' ∉ n →
    takeSlot (n ++ '}' :: r) = some (n, r) := by
  intro n
  induction n with
  | nil => intro r _; simp [takeSlot]
  | cons c n' ih =>
    intro r hn
    have hc : c ≠ '}' := fun h => hn (h ▸ List.mem_cons_self c n')
    rw [List.cons_append, takeSlot, if_neg hc, ih r (fun h => hn (List.mem_cons_of_mem c h))]
    simp

lemma findPathArgs_skip : ∀ (s r : Str), (∀ c ∈ s, c ≠ '{') →
    findPathArgs (s ++ r) = findPathArgs r := by
  intro s
  induction s with
  | nil => intro r _; simp
  | cons c s' ih =>
    intro r hs
    rw [List.cons_append, findPathArgs,
      if_neg (hs c (List.mem_cons_self c s'))]
    exact ih r (fun d hd => hs d (List.mem_cons_of_mem c hd))

lemma goodSeg_lit_chars (s : Str) (h : goodSeg (.lit s) = true) :
    ∀ c ∈ s, okChar c = true := by
  simpa [goodSeg, List.all_eq_true] using h

lemma goodSeg_slot_chars (n : Str) (h : goodSeg (.slot n) = true) :
    ∀ c ∈ n, okChar c = true := by
  simpa [goodSeg, List.all_eq_true] using h

lemma findPathArgs_render : ∀ (segs : List Seg),
    (∀ g ∈ segs, goodSeg g = true) →
    findPathArgs (renderTemplate segs) = (slotNames segs).map braced := by
  intro segs
  induction segs with
  | nil => intro _; simp [renderTemplate, findPathArgs, slotNames]
  | cons g rest ih =>
    intro hg
    have hghead := hg g (List.mem_cons_self g rest)
    have hgtail : ∀ g' ∈ rest, goodSeg g' = true :=
      fun g' h => hg g' (List.mem_cons_of_mem g h)
    cases g with
    | lit s =>
      rw [renderTemplate, findPathArgs_skip s _
        (fun c hc => (okChar_spec c (goodSeg_lit_chars s hghead c hc)).1),
        ih hgtail]
      rfl
    | slot n =>
      have hn : '}' ∉ n := fun h =>
        (okChar_spec '}' (goodSeg_slot_chars n hghead '}' h)).2.1 rfl
      rw [renderTemplate, findPathArgs, if_pos rfl, takeSlot_closed n _ hn]
      simp only [slotNames, List.map_cons, braced, ih hgtail]

lemma matchesAt_self_append : ∀ (p r : Str), matchesAt p (p ++ r) = true := by
  intro p
  induction p with
  | nil => intro r; simp [matchesAt]
  | cons c p' ih => intro r; simp [matchesAt, ih]

lemma matchesAt_name_mismatch : ∀ (a k : Str) (r : Str),
    '}' ∉ a → '}' ∉ k → a ≠ k →
    matchesAt (a ++ ['}']) (k ++ '}' :: r) = false := by
  intro a
  induction a with
  | nil =>
    intro k r _ hk hne
    cases k with
    | nil => exact absurd rfl hne
    | cons c k' =>
      have hc : c ≠ '}' := fun h => hk (h ▸ List.mem_cons_self c k')
      simp [matchesAt, Ne.symm hc]
  | cons c a' ih =>
    intro k r ha hk hne
    have hc : c ≠ '}' := fun h => ha (h ▸ List.mem_cons_self c a')
    cases k with
    | nil =>
      simp [matchesAt, hc]
    | cons d k' =>
      by_cases hcd : c = d
      · subst hcd
        have ha' : '}' ∉ a' := fun h => ha (List.mem_cons_of_mem c h)
        have hk' : '}' ∉ k' := fun h => hk (List.mem_cons_of_mem c h)
        have hne' : a' ≠ k' := fun h => hne (h ▸ rfl)
        simp [matchesAt, ih k' r ha' hk' hne']
      · simp [matchesAt, hcd]

lemma replaceAll_skip : ∀ (s r pat rep : Str),
    pat.head? = some '{' → (∀ c ∈ s, c ≠ '{') →
    replaceAll (s ++ r) pat rep = s ++ replaceAll r pat rep := by
  intro s
  induction s with
  | nil => intro r pat rep _ _; simp
  | cons c s' ih =>
    intro r pat rep hpat hs
    obtain ⟨p', hp⟩ : ∃ p', pat = '{' :: p' := by
      cases pat with
      | nil => simp at hpat
      | cons x xs =>
        simp only [List.head?_cons, Option.some.injEq] at hpat
        exact ⟨xs, by rw [hpat]⟩
    have hc : c ≠ '{' := hs c (List.mem_cons_self c s')
    have hm : matchStart pat (c :: (s' ++ r)) = false := by
      rw [hp, matchStart, matchesAt]
      simp [Ne.symm hc]
    rw [List.cons_append, replaceAll, if_neg (by rw [hm]; simp)]
    rw [ih r pat rep hpat (fun d hd => hs d (List.mem_cons_of_mem c hd))]
    rfl

lemma braced_append (n : Str) (x : Str) :
    braced n ++ x = '{' :: (n ++ '}' :: x) := by
  simp [braced]

lemma braced_length (n : Str) : (braced n).length = n.length + 2 := by
  simp [braced]

lemma braced_ne_nil (n : Str) : (braced n).isEmpty = false := by
  simp [braced, List.isEmpty]

lemma replaceAll_hit : ∀ (pat rep r : Str), pat ≠ [] →
    replaceAll (pat ++ r) pat rep = rep ++ replaceAll r pat rep := by
  intro pat rep r hne
  cases pat with
  | nil => exact absurd rfl hne
  | cons c p' =>
    have hms : matchStart (c :: p') (c :: (p' ++ r)) = true := by
      have h1 : matchesAt (c :: p') (c :: (p' ++ r)) = true :=
        matchesAt_self_append (c :: p') r
      rw [matchStart, h1]
      simp [List.isEmpty]
    rw [List.cons_append, replaceAll, if_pos hms]
    simp only [List.length_cons, Nat.add_sub_cancel]
    rw [List.drop_left]

lemma replaceAll_render : ∀ (T : List Seg) (a b : Str),
    (∀ g ∈ T, goodSeg g = true) →
    (∀ c ∈ a, c ≠ '{' ∧ c ≠ '}') →
    replaceAll (renderTemplate T) (braced a) (braced b) =
      renderTemplate (T.map (renameSlot a b)) := by
  intro T
  induction T with
  | nil => intro a b _ _; simp [renderTemplate, replaceAll]
  | cons g rest ih =>
    intro a b hg ha
    have hghead := hg g (List.mem_cons_self g rest)
    have hgtail : ∀ g' ∈ rest, goodSeg g' = true :=
      fun g' h => hg g' (List.mem_cons_of_mem g h)
    cases g with
    | lit s =>
      rw [renderTemplate,
        replaceAll_skip s _ (braced a) (braced b) (by simp [braced])
          (fun c hc => (okChar_spec c (goodSeg_lit_chars s hghead c hc)).1),
        ih a b hgtail ha]
      rfl
    | slot k =>
      by_cases hak : k = a
      · subst hak
        rw [renderTemplate, ← braced_append,
          replaceAll_hit (braced k) (braced b) _ (by simp [braced]),
          ih k b hgtail ha]
        simp [renameSlot, renderTemplate, braced, List.append_assoc]
      · have hk : '}' ∉ k := fun h =>
          (okChar_spec '}' (goodSeg_slot_chars k hghead '}' h)).2.1 rfl
        have haN : '}' ∉ a := fun h => (ha '}' h).2 rfl
        have hane : a ≠ k := fun h => hak h.symm
        have hmfalse : matchStart (braced a) ('{' :: (k ++ '}' :: renderTemplate rest)) = false := by
          rw [matchStart, braced, matchesAt]
          simp only [beq_self_eq_true, Bool.true_and]
          rw [matchesAt_name_mismatch a k _ haN hk hane]
          simp
        rw [renderTemplate, replaceAll, if_neg (by rw [hmfalse]; simp)]
        rw [List.append_cons k '}' (renderTemplate rest),
          replaceAll_skip (k ++ ['}']) _ (braced a) (braced b) (by simp [braced])
            (by
              intro c hc
              rcases List.mem_append.mp hc with hm | hm
              · exact (okChar_spec c (goodSeg_slot_chars k hghead c hm)).1
              · simp only [List.mem_singleton] at hm
                rw [hm]; decide),
          ih a b hgtail ha]
        simp [renameSlot, hak, renderTemplate, List.append_assoc]

lemma slotNames_map_rename (a b : Str) : ∀ T : List Seg,
    slotNames (T.map (renameSlot a b)) =
      (slotNames T).map (fun n => if n = a then b else n) := by
  intro T
  induction T with
  | nil => simp [slotNames]
  | cons g rest ih =>
    cases g with
    | lit s => simpa [renameSlot, slotNames] using ih
    | slot n => simp [renameSlot, slotNames, ih]

lemma goodSeg_rename (a b : Str) (hb : ∀ c ∈ b, okChar c = true) :
    ∀ g : Seg, goodSeg g = true → goodSeg (renameSlot a b g) = true := by
  intro g hg
  cases g with
  | lit s => simpa [renameSlot] using hg
  | slot n =>
    by_cases h : n = a
    · rw [h]
      have hr : renameSlot a b (Seg.slot a) = Seg.slot b := by simp [renameSlot]
      rw [hr]
      simp only [goodSeg, List.all_eq_true]
      exact fun c hc => hb c hc
    · simpa [renameSlot, h] using hg

lemma numberSegs_map_rename (a b : Str) : ∀ (T : List Seg) (i : Nat),
    numberSegs i (T.map (renameSlot a b)) = numberSegs i T := by
  intro T
  induction T with
  | nil => intro i; simp [numberSegs]
  | cons g rest ih =>
    intro i
    cases g with
    | lit s => simp [renameSlot, numberSegs, ih]
    | slot n => simp [renameSlot, numberSegs, ih]

lemma numberSegs_fixed : ∀ (T : List Seg) (j : Nat),
    slotNames T = (List.range' j (slotNames T).length).map natStr →
    numberSegs j T = T := by
  intro T
  induction T with
  | nil => intro j _; rfl
  | cons g rest ih =>
    intro j hn
    cases g with
    | lit s =>
      rw [numberSegs, ih j (by simpa [slotNames] using hn)]
    | slot n =>
      rw [slotNames, List.length_cons, List.range'_succ, List.map_cons] at hn
      simp only [List.cons.injEq] at hn
      obtain ⟨hn1, hn2⟩ := hn
      rw [numberSegs, ih (j + 1) hn2, ← hn1]

lemma slotNames_chars : ∀ (T : List Seg), (∀ g ∈ T, goodSeg g = true) →
    ∀ n ∈ slotNames T, ∀ c ∈ n, okChar c = true := by
  intro T
  induction T with
  | nil => intro _ n hn; simp [slotNames] at hn
  | cons g rest ih =>
    intro hg n hn
    have hgtail : ∀ g' ∈ rest, goodSeg g' = true :=
      fun g' h => hg g' (List.mem_cons_of_mem g h)
    cases g with
    | lit s =>
      rw [slotNames] at hn
      exact ih hgtail n hn
    | slot m =>
      rw [slotNames] at hn
      rcases List.mem_cons.mp hn with h | h
      · rw [h]
        exact goodSeg_slot_chars m (hg _ (List.mem_cons_self _ rest))
      · exact ih hgtail n h

lemma indexSlots_render : ∀ (rs : List Str) (T : List Seg) (i : Nat),
    (∀ g ∈ T, goodSeg g = true) →
    slotNames T = (List.range' 0 i).map natStr ++ rs →
    rs.Nodup →
    (∀ a ∈ rs, ∀ j, j < i + rs.length → a ≠ natStr j) →
    indexSlots (renderTemplate T) (rs.map braced) i =
      renderTemplate (numberSegs 0 T) := by
  intro rs
  induction rs with
  | nil =>
    intro T i hg hnames _ _
    rw [List.map_nil, indexSlots]
    have hfix : slotNames T = (List.range' 0 (slotNames T).length).map natStr := by
      have hlen : (slotNames T).length = i := by rw [hnames]; simp
      rw [hlen, hnames]
      simp
    rw [numberSegs_fixed T 0 hfix]
  | cons a rs' ih =>
    intro T i hg hnames hnd hnum
    rw [List.map_cons, indexSlots]
    have hmem : a ∈ slotNames T := by
      rw [hnames]
      exact List.mem_append_right _ (List.mem_cons_self a rs')
    have haChars : ∀ c ∈ a, c ≠ '{' ∧ c ≠ '}' := by
      intro c hc
      have h := okChar_spec c (slotNames_chars T hg a hmem c hc)
      exact ⟨h.1, h.2.1⟩
    rw [replaceAll_render T a (natStr i) hg haChars]
    have hgood' : ∀ g ∈ T.map (renameSlot a (natStr i)), goodSeg g = true := by
      intro g hgm
      obtain ⟨g0, hg0, hmap⟩ := List.mem_map.mp hgm
      rw [← hmap]
      exact goodSeg_rename a (natStr i) (fun c hc => natStr_okChar i c hc) g0 (hg g0 hg0)
    have hnames' : slotNames (T.map (renameSlot a (natStr i)))
        = (List.range' 0 (i + 1)).map natStr ++ rs' := by
      rw [slotNames_map_rename, hnames, List.map_append, List.map_cons, List.map_map]
      rw [List.range'_1_concat, List.map_append, List.append_assoc]
      congr 1
      · refine List.map_congr_left ?_
        intro j hj
        have hji : j < i := by
          have := List.mem_range'_1.mp hj
          omega
        have hlen : (a :: rs').length = rs'.length + 1 := by simp
        have hne : natStr j ≠ a :=
          Ne.symm (hnum a (List.mem_cons_self a rs') j (by rw [hlen]; omega))
        simp [Function.comp, hne]
      · rw [if_pos rfl]
        simp only [List.singleton_append, Nat.zero_add]
        congr 1
        have hfix : ∀ n ∈ rs', (if n = a then natStr i else n) = n := by
          intro n hn
          have hna : n ≠ a := by
            intro h
            exact (List.nodup_cons.mp hnd).1 (h ▸ hn)
          simp [hna]
        rw [List.map_congr_left hfix, List.map_id']
        simp
    have hnd' : rs'.Nodup := (List.nodup_cons.mp hnd).2
    have hnum' : ∀ b ∈ rs', ∀ j, j < (i + 1) + rs'.length → b ≠ natStr j := by
      intro b hb j hj
      have hlen : (a :: rs').length = rs'.length + 1 := by simp
      exact hnum b (List.mem_cons_of_mem a hb) j (by rw [hlen]; omega)
    rw [ih (T.map (renameSlot a (natStr i))) (i + 1) hgood' hnames' hnd' hnum']
    rw [numberSegs_map_rename]

lemma numberSegs_good : ∀ (T : List Seg) (i : Nat),
    (∀ g ∈ T, goodSeg g = true) → ∀ g ∈ numberSegs i T, goodSeg g = true := by
  intro T
  induction T with
  | nil => intro i _ g hgm; simp [numberSegs] at hgm
  | cons g0 rest ih =>
    intro i hg g hgm
    cases g0 with
    | lit s =>
      rw [numberSegs] at hgm
      rcases List.mem_cons.mp hgm with h | h
      · rw [h]; exact hg _ (List.mem_cons_self _ _)
      · exact ih i (fun x hx => hg x (List.mem_cons_of_mem _ hx)) g h
    | slot n =>
      rw [numberSegs] at hgm
      rcases List.mem_cons.mp hgm with h | h
      · rw [h]
        simp only [goodSeg, List.all_eq_true]
        exact fun c hc => natStr_okChar i c hc
      · exact ih (i + 1) (fun x hx => hg x (List.mem_cons_of_mem _ hx)) g h

lemma render_chars : ∀ (T : List Seg), (∀ g ∈ T, goodSeg g = true) →
    ∀ c ∈ renderTemplate T, c ≠ '?' ∧ c ≠ '#' ∧ c ≠ ';' := by
  intro T
  induction T with
  | nil => intro _ c hc; simp [renderTemplate] at hc
  | cons g rest ih =>
    intro hg c hc
    have hgtail : ∀ g' ∈ rest, goodSeg g' = true :=
      fun g' h => hg g' (List.mem_cons_of_mem g h)
    cases g with
    | lit s =>
      rw [renderTemplate] at hc
      rcases List.mem_append.mp hc with h | h
      · have hall := okChar_spec c
          (goodSeg_lit_chars s (hg _ (List.mem_cons_self _ _)) c h)
        exact ⟨hall.2.2.1, hall.2.2.2.1, hall.2.2.2.2⟩
      · exact ih hgtail c h
    | slot n =>
      rw [renderTemplate] at hc
      rcases List.mem_cons.mp hc with h | h
      · rw [h]; exact ⟨by decide, by decide, by decide⟩
      · rcases List.mem_append.mp h with h2 | h2
        · have hall := okChar_spec c
            (goodSeg_slot_chars n (hg _ (List.mem_cons_self _ _)) c h2)
          exact ⟨hall.2.2.1, hall.2.2.2.1, hall.2.2.2.2⟩
        · rcases List.mem_cons.mp h2 with h3 | h3
          · rw [h3]; exact ⟨by decide, by decide, by decide⟩
          · exact ih hgtail c h3

lemma splitOnChar_none : ∀ (s : Str) (ch : Char), (∀ c ∈ s, c ≠ ch) →
    splitOnChar ch s = (s, []) := by
  intro s
  induction s with
  | nil => intro ch _; rfl
  | cons c s' ih =>
    intro ch hs
    have hc := hs c (List.mem_cons_self c s')
    have ht := ih ch (fun d hd => hs d (List.mem_cons_of_mem c hd))
    simp [splitOnChar, hc, ht]

lemma splitParams_none (s : Str) (h : ';' ∉ s) : splitParams s = (s, []) := by
  rw [splitParams, if_neg h]

lemma parseRelUrl_clean (s : Str) (h : ∀ c ∈ s, c ≠ '?' ∧ c ≠ '#' ∧ c ≠ ';') :
    parseRelUrl s = (s, [], [], []) := by
  have hsp := splitParams_none s (fun hm => (h ';' hm).2.2 rfl)
  simp [parseRelUrl, splitOnChar_none s '#' (fun c hc => (h c hc).2.1),
    splitOnChar_none s '?' (fun c hc => (h c hc).1), hsp]

lemma pyFormat_skip : ∀ (s X : Str) (args : List Str),
    (∀ c ∈ s, okChar c = true) →
    pyFormat (s ++ X) args = (pyFormat X args).map (fun r => s ++ r) := by
  intro s
  induction s with
  | nil => intro X args _; cases h : pyFormat X args <;> simp [h]
  | cons c s' ih =>
    intro X args hs
    have hc := okChar_spec c (hs c (List.mem_cons_self c s'))
    rw [List.cons_append, pyFormat, if_neg hc.1, if_neg hc.2.1]
    rw [ih X args (fun d hd => hs d (List.mem_cons_of_mem c hd))]
    cases pyFormat X args <;> simp

lemma pyFormat_render_numbered (args : List Str) : ∀ (segs : List Seg) (i : Nat),
    (∀ g ∈ segs, goodSeg g = true) →
    args.length = i + (slotNames segs).length →
    pyFormat (renderTemplate (numberSegs i segs)) args =
      some (substTemplate args i segs) := by
  intro segs
  induction segs with
  | nil => intro i _ _; simp [numberSegs, renderTemplate, pyFormat, substTemplate]
  | cons g rest ih =>
    intro i hg hlen
    have hghead := hg g (List.mem_cons_self g rest)
    have hgtail : ∀ g' ∈ rest, goodSeg g' = true :=
      fun g' h => hg g' (List.mem_cons_of_mem g h)
    cases g with
    | lit s =>
      rw [numberSegs, renderTemplate,
        pyFormat_skip s _ args (goodSeg_lit_chars s hghead),
        ih i hgtail (by simpa [slotNames] using hlen)]
      rfl
    | slot n =>
      obtain ⟨d, ds, hns⟩ : ∃ d ds, natStr i = d :: ds := by
        cases h : natStr i with
        | nil => exact absurd h (natStr_ne_nil i)
        | cons d ds => exact ⟨d, ds, rfl⟩
      have hd_mem : d ∈ natStr i := by rw [hns]; exact List.mem_cons_self d ds
      have hd57 := natStr_chars i d hd_mem
      have hdne : d ≠ '{' := by
        intro h
        rw [h] at hd57
        revert hd57
        decide
      have hnZ : '}' ∉ natStr i := by
        intro h
        have := natStr_chars i '}' h
        revert this
        decide
      rw [numberSegs, renderTemplate, pyFormat, if_pos rfl]
      have hhead : (natStr i ++ '}' :: renderTemplate (numberSegs (i + 1) rest)).head?
          = some d := by
        rw [hns]
        simp
      rw [hhead, if_neg (by simp [hdne])]
      have hlen' : args.length = (i + 1) + (slotNames rest).length := by
        rw [hlen, slotNames, List.length_cons]
        omega
      have hi : i < args.length := by rw [hlen']; omega
      obtain ⟨v, hv⟩ : ∃ v, args.get? i = some v :=
        ⟨args.get ⟨i, hi⟩, List.get?_eq_get hi⟩
      rw [takeSlot_closed (natStr i) (renderTemplate (numberSegs (i + 1) rest)) hnZ]
      simp only [parseNat?_natStr, hv, ih (i + 1) hgtail hlen']
      rw [substTemplate, hv]
      simp

lemma dictUpdate_disjoint : ∀ (l d : List (Str × Str)),
    (∀ kv ∈ l, dictHas d kv.1 = false) →
    (l.map Prod.fst).Nodup →
    dictUpdate d l = d ++ l := by
  intro l
  induction l with
  | nil => intro d _ _; simp [dictUpdate]
  | cons kv l' ih =>
    obtain ⟨k, v⟩ := kv
    intro d hdisj hnd
    have hnd2 : (k :: l'.map Prod.fst).Nodup := by simpa using hnd
    have step : dictUpdate d ((k, v) :: l') = dictUpdate (dictSet d k v) l' := by
      simp [dictUpdate]
    have hset : dictSet d k v = d ++ [(k, v)] := by
      rw [dictSet, if_neg]
      rw [hdisj (k, v) (List.mem_cons_self _ _)]
      simp
    rw [step, hset,
      ih (d ++ [(k, v)])
        (by
          intro kv2 hm
          have h1 : dictHas d kv2.1 = false := hdisj kv2 (List.mem_cons_of_mem _ hm)
          have h2 : kv2.1 ≠ k := by
            intro he
            have hmm : kv2.1 ∈ l'.map Prod.fst := List.mem_map_of_mem Prod.fst hm
            rw [he] at hmm
            exact (List.nodup_cons.mp hnd2).1 hmm
          rw [dictHas] at h1
          rw [dictHas, List.any_append, h1]
          simp [beq_iff_eq, Ne.symm h2])
        (List.nodup_cons.mp hnd2).2]
    simp

lemma urlencode_ne_nil (kv : Str × Str) (q : List (Str × Str)) :
    urlencode (kv :: q) ≠ [] := by
  rw [urlencode, List.map_cons]
  cases hq : q.map (fun kv => quote_plus kv.1 ++ '=' :: quote_plus kv.2) with
  | nil => rw [joinAmp]; simp
  | cons x xs => rw [joinAmp]; simp

/-- Claim C8: for every well-formed endpoint URL template (its literals
and slot names free of the URL metacharacters `{ } ? # ;`, slot names
distinct and not slot-index numerals — all true of the API's swagger path
templates), positional path-argument list of the right length, and
query-argument mapping with distinct keys, `materialize_url_template`
produces exactly the API base URL, followed by the template with the i-th
argument substituted into the i-th path slot, followed by the query
mapping as an encoded query string.  (On templates outside this domain
the embedding still follows the source — e.g. a `;` in the last path
segment is split off as the params component and reattached after the
substituted path — but the claim's clean shape only holds on it.) -/
theorem materialize_url_template_correct (base : UrlBase) (segs : List Seg)
    (args : List Str) (kwargs : List (Str × Str))
    (hwf : WFTemplate segs) (hlen : args.length = (slotNames segs).length)
    (hkeys : (kwargs.map Prod.fst).Nodup) :
    materialize_url_template base (renderTemplate segs) args kwargs =
      some (base.scheme ++ ':' :: '/' :: '/' :: (base.host
        ++ (base.basePath ++ substTemplate args 0 segs)
        ++ (if kwargs = [] then [] else '?' :: urlencode kwargs))) := by
  obtain ⟨hgood, hnd, hnum⟩ := hwf
  have h1 : findPathArgs (renderTemplate segs) = (slotNames segs).map braced :=
    findPathArgs_render segs hgood
  have h2 : indexSlots (renderTemplate segs) ((slotNames segs).map braced) 0
      = renderTemplate (numberSegs 0 segs) :=
    indexSlots_render (slotNames segs) segs 0 hgood (by simp) hnd
      (by simpa using hnum)
  have hg' : ∀ g ∈ numberSegs 0 segs, goodSeg g = true := numberSegs_good segs 0 hgood
  have h3 : parseRelUrl (renderTemplate (numberSegs 0 segs))
      = (renderTemplate (numberSegs 0 segs), [], [], []) :=
    parseRelUrl_clean _ (render_chars _ hg')
  have h4 : pyFormat (renderTemplate (numberSegs 0 segs)) args
      = some (substTemplate args 0 segs) :=
    pyFormat_render_numbered args segs 0 hgood (by omega)
  have h5 : dictUpdate [] kwargs = kwargs := by
    rw [dictUpdate_disjoint kwargs [] (by intro kv _; rfl) hkeys]
    simp
  have hqsl : parse_qsl [] = [] := rfl
  have hdol : dictOfList [] = [] := rfl
  rw [materialize_url_template]
  simp only [h1, h2, h3, h4, hqsl, hdol, h5]
  rw [unparseUrl]
  cases kwargs with
  | nil =>
    simp [urlencode, joinAmp]
  | cons kv kws =>
    rw [if_neg (urlencode_ne_nil kv kws)]
    simp

instance (segs : List Seg) : Decidable (WFTemplate segs) := by
  unfold WFTemplate noNumeralNames
  infer_instance

/-- The CoinGecko API base URL components. -/
def base0 : UrlBase := ⟨"https".data, "api.coingecko.com".data, "/api/v3".data⟩

/-- The structured template of `/coins/{id}/history`. -/
def segs0 : List Seg := [.lit "/coins/".data, .slot "id".data, .lit "/history".data]

theorem materialize_url_template_correct_witness :
    WFTemplate segs0 ∧
    materialize_url_template base0 (renderTemplate segs0) ["bitcoin".data]
        [("date".data, "30-12-2017".data)] =
      some (base0.scheme ++ ':' :: '/' :: '/' :: (base0.host
        ++ (base0.basePath ++ substTemplate ["bitcoin".data] 0 segs0)
        ++ (if ([("date".data, "30-12-2017".data)] : List (Str × Str)) = [] then []
            else '?' :: urlencode [("date".data, "30-12-2017".data)]))) :=
  ⟨by decide,
   materialize_url_template_correct base0 segs0 ["bitcoin".data]
     [("date".data, "30-12-2017".data)] (by decide) (by decide) (by decide)⟩
